import Mathlib

/-!
Verification development for the claudish transcoding core.

The development shallowly embeds the two source modules:

* `src/transform.ts` — pure request/schema transformation functions
  (`sanitizeRoot`, `removeUriFormat`, `cleanSchemaForGemini`,
  `transformOpenAIToClaude`, `transformClaudeToGemini`);
* `src/handlers/gemini-handler.ts` — the streaming state machine of
  `handleStreamingResponse` that re-emits Gemini SSE frames as Claude
  stream events.

JavaScript dynamic values are modelled by the inductive type `JVal`
(JSON values); JavaScript objects are association lists with the
first-match lookup and whole-key deletion used by the code.  External
JavaScript builtins that the repository merely calls
(`JSON.stringify`, `String.prototype.split`, `decodeURIComponent`,
`Date.now`-based id generation) are modelled by explicit executable
functions or, for `decodeURIComponent`, by an arbitrary function
parameter, as noted at each definition.
-/

namespace Claudish

/-- Model of a JSON / JavaScript value (no `undefined`: an absent object
key is modelled by a `none` lookup). Numbers are modelled as integers;
no claim depends on fractional values. -/
inductive JVal where
  | null : JVal
  | bool : Bool → JVal
  | num : Int → JVal
  | str : String → JVal
  | arr : List JVal → JVal
  | obj : List (String × JVal) → JVal

/-- A JavaScript object: ordered key/value pairs. -/
abbrev Obj := List (String × JVal)

/-- JavaScript truthiness of a value (`NaN` is not modelled). -/
def truthy : JVal → Bool
  | JVal.null => false
  | JVal.bool b => b
  | JVal.num n => n != 0
  | JVal.str s => s != ""
  | JVal.arr _ => true
  | JVal.obj _ => true

/-- Property lookup `o[k]`: `none` models `undefined`. -/
def getK (o : Obj) (k : String) : Option JVal :=
  (o.find? (fun kv => kv.1 == k)).map (fun kv => kv.2)

/-- Property lookup defaulting to `null` (used where the code only
tests truthiness, where `undefined` and `null` behave alike). -/
def getV (o : Obj) (k : String) : JVal :=
  (getK o k).getD JVal.null

/-- Property deletion `delete o[k]`. -/
def delK (o : Obj) (k : String) : Obj :=
  o.filter (fun kv => kv.1 != k)

/-- Property assignment `o[k] = v`: replaces the value in place when the
key exists, otherwise appends the new key (JavaScript insertion order). -/
def setK (o : Obj) (k : String) (v : JVal) : Obj :=
  if (o.find? (fun kv => kv.1 == k)).isSome then
    o.map (fun kv => if kv.1 == k then (kv.1, v) else kv)
  else o ++ [(k, v)]

/-- Keys produced by an object spread `{...v}` of an arbitrary value:
objects contribute their entries, arrays and strings contribute
index-keyed elements, primitives contribute nothing. -/
def spreadKVs : JVal → Obj
  | JVal.obj kvs => kvs
  | JVal.arr xs => (xs.enum).map (fun ic => (toString ic.1, ic.2))
  | JVal.str s => (s.toList.enum).map (fun ic => (toString ic.1, JVal.str (String.singleton ic.2)))
  | _ => []

/-- Build an object from a pair list with JavaScript object-literal
semantics: a later duplicate key overwrites the earlier one. -/
def objFromPairs (kvs : List (String × JVal)) : Obj :=
  kvs.foldl (fun o kv => setK o kv.1 kv.2) []

/-- Models `JSON.stringify` escaping of one character (quote and
backslash; control-character escapes are not exercised by any claim). -/
def escChar (c : Char) : String :=
  if c = '\"' then "\\\"" else if c = '\\' then "\\\\" else String.singleton c

/-- Models `JSON.stringify` rendering of a string literal. -/
def jsonQuote (s : String) : String :=
  "\"" ++ String.join (s.toList.map escChar) ++ "\""

mutual

/-- Models the JavaScript builtin `JSON.stringify`. -/
def stringifyJ : JVal → String
  | JVal.null => "null"
  | JVal.bool b => cond b "true" "false"
  | JVal.num n => toString n
  | JVal.str s => jsonQuote s
  | JVal.arr xs => "[" ++ String.intercalate "," (stringifyList xs) ++ "]"
  | JVal.obj kvs => "\x7b" ++ String.intercalate "," (stringifyKVs kvs) ++ "\x7d"

/-- Renders each array element of a `JSON.stringify` call. -/
def stringifyList : List JVal → List String
  | [] => []
  | x :: xs => stringifyJ x :: stringifyList xs

/-- Renders each object entry of a `JSON.stringify` call. -/
def stringifyKVs : List (String × JVal) → List String
  | [] => []
  | kv :: kvs => (jsonQuote kv.1 ++ ":" ++ stringifyJ kv.2) :: stringifyKVs kvs

end

/-- Checks whether `sep` is a leading segment of `l`, returning the
remainder after it. Helper for the `String.prototype.split` model. -/
def chopSeg : List Char → List Char → Option (List Char)
  | [], rest => some rest
  | _ :: _, [] => none
  | p :: ps, c :: cs => if p = c then chopSeg ps cs else none

/-- Fuelled scanner for the `String.prototype.split` model: `cur` holds
the chars of the current field in reverse, `acc` the finished fields in
reverse. Every step consumes at least one character, so fuel
`length + 1` suffices. -/
def jsSplitGo (sep : List Char) : Nat → List Char → List Char → List (List Char) → List (List Char)
  | 0, _, cur, acc => (cur.reverse :: acc).reverse
  | _ + 1, [], cur, acc => (cur.reverse :: acc).reverse
  | f + 1, c :: cs, cur, acc =>
    match chopSeg sep (c :: cs) with
    | some rest => jsSplitGo sep f rest [] (cur.reverse :: acc)
    | none => jsSplitGo sep f cs (c :: cur) acc

/-- Models the JavaScript builtin `String.prototype.split` with a string
separator (leftmost, non-overlapping; an empty separator splits into
single characters). -/
def jsSplit (s sep : String) : List String :=
  if sep = "" then s.toList.map String.singleton
  else (jsSplitGo sep.toList (s.toList.length + 1) s.toList [] []).map String.mk

/-- Models the JavaScript builtin `String.prototype.includes`. -/
def jsIncludes (s sub : String) : Bool :=
  sub = "" || (jsSplit s sub).length ≥ 2

/-- The fixed drop-list of `transform.ts` (`DROP_KEYS`). -/
def DROP_KEYS : List String :=
  ["n", "presence_penalty", "frequency_penalty", "best_of", "logit_bias",
   "seed", "stream_options", "logprobs", "top_logprobs", "user",
   "response_format", "service_tier", "parallel_tool_calls", "functions",
   "function_call", "developer", "strict", "reasoning_effort"]

/-- The `for (const key of DROP_KEYS)` loop of `sanitizeRoot`: deletes
each listed key that is present and records it. -/
def dropLoop : List String → Obj → List String → Obj × List String
  | [], req, dropped => (req, dropped)
  | k :: ks, req, dropped =>
    if (getK req k).isSome then dropLoop ks (delK req k) (dropped ++ [k])
    else dropLoop ks req dropped

/-- First stage of `sanitizeRoot`: rename a present `stop` key to
`stop_sequences`, coercing a scalar to a one-element array. -/
def stopStage (req : Obj) : Obj :=
  match getK req "stop" with
  | some v =>
    let seqs := match v with
      | JVal.arr xs => JVal.arr xs
      | w => JVal.arr [w]
    delK (setK req "stop_sequences" seqs) "stop"
  | none => req

/-- Second stage of `sanitizeRoot`: move a truthy `user` into
`metadata.user_id`, recording the dropped key. -/
def userStage (req : Obj) : Obj × List String :=
  match getK req "user" with
  | some u =>
    if truthy u then
      let md := JVal.obj (objFromPairs (spreadKVs (getV req "metadata") ++ [("user_id", u)]))
      (delK (setK req "metadata" md) "user", ["user"])
    else (req, [])
  | none => (req, [])

/-- Last stage of `sanitizeRoot`: default an absent or null
`max_tokens` to 4096. -/
def maxTokensStage (req : Obj) : Obj :=
  match getK req "max_tokens" with
  | none => setK req "max_tokens" (JVal.num 4096)
  | some JVal.null => setK req "max_tokens" (JVal.num 4096)
  | some _ => req

/-- Embedding of `sanitizeRoot` (`transform.ts`): renames `stop` to
`stop_sequences`, moves a truthy `user` into `metadata.user_id`, deletes
every drop-list key recording it, and defaults `max_tokens` to 4096.
The in-place mutation of the source is modelled by returning the new
object together with the dropped-key list. -/
def sanitizeRoot (req0 : Obj) : Obj × List String :=
  let req1 := stopStage req0
  let step2 := userStage req1
  let step3 := dropLoop DROP_KEYS step2.1 step2.2
  (maxTokensStage step3.1, step3.2)

/-- JavaScript `typeof v === "object"` (true for `null`, arrays and
objects). -/
def isObjType : JVal → Bool
  | JVal.null => true
  | JVal.arr _ => true
  | JVal.obj _ => true
  | _ => false

/-- JavaScript `Array.isArray`. -/
def isArr : JVal → Bool
  | JVal.arr _ => true
  | _ => false

/-- The `UNSUPPORTED_FIELDS` list of `cleanSchemaForGemini`
(`transform.ts`). -/
def UNSUPPORTED_FIELDS : List String :=
  ["$schema", "additionalProperties", "exclusiveMinimum", "exclusiveMaximum",
   "multipleOf", "patternProperties", "dependencies", "const", "if", "then",
   "else", "allOf", "anyOf", "oneOf", "not"]

mutual

/-- Embedding of `cleanSchemaForGemini` (`transform.ts`): primitives and
`null` are returned unchanged, arrays are cleaned element-wise, objects
are rebuilt dropping the unsupported keys and recursing per the
branches of the source. -/
def cleanJ : JVal → JVal
  | JVal.null => JVal.null
  | JVal.bool b => JVal.bool b
  | JVal.num n => JVal.num n
  | JVal.str s => JVal.str s
  | JVal.arr xs => JVal.arr (cleanList xs)
  | JVal.obj kvs => JVal.obj (cleanKVs kvs)

/-- The `schema.map(item => cleanSchemaForGemini(item))` branch. -/
def cleanList : List JVal → List JVal
  | [] => []
  | x :: xs => cleanJ x :: cleanList xs

/-- The `for (const key in schema)` object loop of
`cleanSchemaForGemini`, dropping unsupported keys. -/
def cleanKVs : List (String × JVal) → List (String × JVal)
  | [] => []
  | (k, v) :: kvs =>
    if k ∈ UNSUPPORTED_FIELDS then cleanKVs kvs
    else (k, cleanEntry k v) :: cleanKVs kvs

/-- One retained object entry of `cleanSchemaForGemini`, following the
if/else chain of the source on the shape of the value (the nested calls
`cleanSchemaForGemini(schema[key])` are inlined per constructor so the
recursion is visibly decreasing). -/
def cleanEntry (k : String) (v : JVal) : JVal :=
  if k = "properties" ∧ isObjType v then
    match v with
    | JVal.obj kvs => JVal.obj (cleanPropKVs kvs)
    | JVal.arr xs => JVal.obj (cleanIdxKVs 0 xs)
    | _ => JVal.obj []
  else if k = "items" ∧ isObjType v then
    match v with
    | JVal.obj kvs => JVal.obj (cleanKVs kvs)
    | JVal.arr xs => JVal.arr (cleanList xs)
    | _ => JVal.null
  else if isObjType v ∧ ¬ isArr v then
    match v with
    | JVal.obj kvs => JVal.obj (cleanKVs kvs)
    | _ => JVal.null
  else if isArr v then
    match v with
    | JVal.arr xs => JVal.arr (cleanItems xs)
    | w => w
  else v

/-- The `properties` sub-loop: property values are cleaned, property
names are kept verbatim (even ones in the unsupported list). -/
def cleanPropKVs : List (String × JVal) → List (String × JVal)
  | [] => []
  | (k, v) :: kvs => (k, cleanJ v) :: cleanPropKVs kvs

/-- `for .. in` over an array value of `properties` enumerates index
keys, turning the array into an index-keyed object. -/
def cleanIdxKVs (i : Nat) : List JVal → List (String × JVal)
  | [] => []
  | x :: xs => (toString i, cleanJ x) :: cleanIdxKVs (i + 1) xs

/-- The generic array branch: only elements of object type are cleaned,
other elements pass through unchanged. -/
def cleanItems : List JVal → List JVal
  | [] => []
  | x :: xs => (if isObjType x then cleanJ x else x) :: cleanItems xs

end

/-- The `schema.type === "string" && schema.format === "uri"` test of
`removeUriFormat`. -/
def uriStringSchema (kvs : List (String × JVal)) : Bool :=
  (match getK kvs "type" with
   | some (JVal.str t) => t = "string"
   | _ => false) &&
  (match getK kvs "format" with
   | some (JVal.str f) => f = "uri"
   | _ => false)

mutual

/-- Embedding of `removeUriFormat` (`transform.ts`): drops the `format`
key of a `type: "string", format: "uri"` schema (without recursing into
the rest), cleans arrays element-wise and rebuilds objects recursing
into every entry. -/
def removeUriFormat : JVal → JVal
  | JVal.null => JVal.null
  | JVal.bool b => JVal.bool b
  | JVal.num n => JVal.num n
  | JVal.str s => JVal.str s
  | JVal.arr xs => JVal.arr (ruList xs)
  | JVal.obj kvs =>
    if uriStringSchema kvs then JVal.obj (delK kvs "format")
    else JVal.obj (ruKVs kvs)

/-- The `schema.map(item => removeUriFormat(item))` branch. -/
def ruList : List JVal → List JVal
  | [] => []
  | x :: xs => removeUriFormat x :: ruList xs

/-- The `for (const key in schema)` object loop of `removeUriFormat`. -/
def ruKVs : List (String × JVal) → List (String × JVal)
  | [] => []
  | (k, v) :: kvs => (k, ruEntry k v) :: ruKVs kvs

/-- One object entry of `removeUriFormat`, following the if/else chain
of the source (nested recursive calls inlined per constructor). -/
def ruEntry (k : String) (v : JVal) : JVal :=
  if k = "properties" ∧ isObjType v then
    match v with
    | JVal.obj kvs => JVal.obj (ruPropKVs kvs)
    | JVal.arr xs => JVal.obj (ruIdxKVs 0 xs)
    | _ => JVal.obj []
  else if k = "items" ∧ isObjType v then
    match v with
    | JVal.obj kvs =>
      if uriStringSchema kvs then JVal.obj (delK kvs "format") else JVal.obj (ruKVs kvs)
    | JVal.arr xs => JVal.arr (ruList xs)
    | _ => JVal.null
  else if k = "additionalProperties" ∧ isObjType v then
    match v with
    | JVal.obj kvs =>
      if uriStringSchema kvs then JVal.obj (delK kvs "format") else JVal.obj (ruKVs kvs)
    | JVal.arr xs => JVal.arr (ruList xs)
    | _ => JVal.null
  else if (k = "anyOf" ∨ k = "allOf" ∨ k = "oneOf") ∧ isArr v then
    match v with
    | JVal.arr xs => JVal.arr (ruList xs)
    | w => w
  else
    match v with
    | JVal.obj kvs =>
      if uriStringSchema kvs then JVal.obj (delK kvs "format") else JVal.obj (ruKVs kvs)
    | JVal.arr xs => JVal.arr (ruList xs)
    | w => w

/-- The `properties` sub-loop of `removeUriFormat`. -/
def ruPropKVs : List (String × JVal) → List (String × JVal)
  | [] => []
  | (k, v) :: kvs => (k, removeUriFormat v) :: ruPropKVs kvs

/-- `for .. in` over an array value of `properties` in
`removeUriFormat` enumerates index keys. -/
def ruIdxKVs (i : Nat) : List JVal → List (String × JVal)
  | [] => []
  | x :: xs => (toString i, removeUriFormat x) :: ruIdxKVs (i + 1) xs

end

/-! Embedding of `transformOpenAIToClaude` (`transform.ts`). The deep
copy `JSON.parse(JSON.stringify(x))` is the identity in this pure
model. -/

/-- Rendering of one `system` array item, following the if/else chain
of the source. Branches that return a raw non-string value feed the
subsequent `.trim()` call in the source; they are modelled by their
JSON rendering (the original would throw there, which no claim
exercises). -/
def sysEntryText : JVal → String
  | JVal.str s => s
  | JVal.obj kvs =>
    let isTextType := match getK kvs "type" with
      | some (JVal.str t) => t == "text"
      | _ => false
    let tx := getV kvs "text"
    let ct := getV kvs "content"
    if isTextType && truthy tx then
      match tx with | JVal.str s => s | w => stringifyJ w
    else if isTextType && truthy ct then
      match ct with | JVal.str s => s | w => stringifyJ w
    else if truthy tx then
      match tx with | JVal.str s => s | w => stringifyJ w
    else if truthy ct then
      match ct with | JVal.str s => s | w => stringifyJ w
    else stringifyJ (JVal.obj kvs)
  | v => stringifyJ v

/-- The `system` array flattening of `transformOpenAIToClaude`: map
each item to text, keep the non-blank ones, join with a blank line. -/
def flattenSystem (items : List JVal) : String :=
  String.intercalate "\n\n"
    (((items.map sysEntryText).filter (fun t => t ≠ "" ∧ t.trim ≠ "")))

/-- The per-tool mutation `t.input_schema = removeUriFormat(...)`,
applied when `t` and `t.input_schema` are truthy. -/
def fixTool : JVal → JVal
  | JVal.obj kvs =>
    if truthy (getV kvs "input_schema") then
      JVal.obj (setK kvs "input_schema" (removeUriFormat (getV kvs "input_schema")))
    else JVal.obj kvs
  | v => v

/-- Result triple of `transformOpenAIToClaude`. -/
structure TransformResult where
  claudeRequest : Obj
  droppedParams : List String
  isO3Model : Bool

/-- Embedding of `transformOpenAIToClaude` (`transform.ts`): deep-copies
the request, computes the o3/o1 model flag, flattens a `system` array,
coerces `messages` and `tools` to arrays, prunes each tool schema with
`removeUriFormat`, and returns an (unconditionally empty) dropped-key
list. -/
def transformOpenAIToClaude (input : Obj) : TransformResult :=
  let req0 := input
  let isO3 :=
    match getK req0 "model" with
    | some (JVal.str m) => jsIncludes m "o3" || jsIncludes m "o1"
    | _ => false
  let req1 :=
    match getK req0 "system" with
    | some (JVal.arr items) => setK req0 "system" (JVal.str (flattenSystem items))
    | _ => req0
  let req2 :=
    match getK req1 "messages" with
    | some (JVal.arr ms) => setK req1 "messages" (JVal.arr ms)
    | some JVal.null => setK req1 "messages" (JVal.arr [])
    | none => setK req1 "messages" (JVal.arr [])
    | some v => setK req1 "messages" (JVal.arr [v])
  let req3 :=
    match getK req2 "tools" with
    | some (JVal.arr ts) => setK req2 "tools" (JVal.arr (ts.map fixTool))
    | _ => setK req2 "tools" (JVal.arr [])
  { claudeRequest := req3, droppedParams := [], isO3Model := isO3 }

/-! Embedding of `transformClaudeToGemini` (`transform.ts`). -/

/-- A Gemini function call part payload (`{name, args}`; the source
never places any other field inside it). -/
structure FCall where
  name : String
  args : JVal

/-- A Gemini inline-data (image) part payload. -/
structure InlineData where
  mimeType : String
  data : String

/-- A Gemini function-response part payload (the source nests the
content as `response.content`). -/
structure FuncResp where
  name : String
  responseContent : String

/-- One part of a Gemini `contents` message as assembled by
`transformClaudeToGemini`; absent JavaScript fields are `none`. The
thought signature, when present, is a sibling of `functionCall` at this
level, never a field inside it. -/
structure GeminiPart where
  text : Option String := none
  inlineData : Option InlineData := none
  functionCall : Option FCall := none
  thoughtSignature : Option String := none
  functionResponse : Option FuncResp := none

/-- One message of the Gemini `contents` array. -/
structure GeminiMessage where
  role : String
  parts : List GeminiPart

/-- The `generationConfig` object (fields copied verbatim from the
Claude request when present). -/
structure GenerationConfig where
  temperature : Option JVal := none
  maxOutputTokens : Option JVal := none
  stopSequences : Option JVal := none
  topP : Option JVal := none
  topK : Option JVal := none

/-- One Gemini function declaration. -/
structure FunctionDecl where
  name : String
  description : Option JVal
  parameters : JVal

/-- The outbound Gemini payload; `thinkingConfigBudget` models the
`thinking_config.thinking_budget` field. -/
structure GeminiPayload where
  contents : List GeminiMessage
  generationConfig : GenerationConfig
  systemInstruction : Option String := none
  tools : Option (List FunctionDecl) := none
  thinkingLevel : Option String := none
  thinkingConfigBudget : Option Int := none

/-- A Claude content block as read by `transformClaudeToGemini`;
`otherB` stands for any block type the source does not branch on
(nothing is emitted for it). -/
inductive CBlockIn where
  | text (t : String)
  | image (mediaType : Option String) (data : String)
  | toolUse (id : String) (name : String) (input : JVal)
  | toolResult (toolUseId : String) (content : JVal)
  | otherB (v : JVal)

/-- Message content: a plain string, a block array, or anything else
(which yields no parts). -/
inductive MsgContent where
  | str (s : String)
  | blocks (bs : List CBlockIn)
  | otherC (v : JVal)

/-- One Claude message. -/
structure ClaudeMessage where
  role : String
  content : MsgContent

/-- A tool declaration of the Claude request. -/
structure ClaudeTool where
  name : String
  description : Option JVal
  inputSchema : JVal

/-- The `thinking` object of the Claude request. -/
structure ThinkingCfg where
  budgetTokens : Int

/-- The fields of the Claude request read by
`transformClaudeToGemini`. Generation parameters are kept as raw
values; `tools` is `some` exactly when the field is present as an
array. -/
structure ClaudeRequest where
  system : Option JVal := none
  messages : List ClaudeMessage := []
  temperature : Option JVal := none
  maxTokens : Option JVal := none
  stopSequences : Option JVal := none
  topP : Option JVal := none
  topK : Option JVal := none
  tools : Option (List ClaudeTool) := none
  thinking : Option ThinkingCfg := none

/-- Models `a || b` for an optional string against a default
(`block.source.media_type || "image/png"`). -/
def jsOrStr (o : Option String) (d : String) : String :=
  match o with
  | some s => if s ≠ "" then s else d
  | none => d

/-- The part built for one `tool_use` block by `transformClaudeToGemini`,
parameterised by `dec`, the model of the JavaScript builtin
`decodeURIComponent` (`none` models a thrown decode error, which the
source catches and swallows). The signature suffix is the second
element of `block.id.split("__ts_")`; the decoded signature is stored
as a sibling of `functionCall`, never inside it. -/
def toolUsePart (dec : String → Option String) (id name : String) (input : JVal) : GeminiPart :=
  let base : GeminiPart := { functionCall := some ⟨name, input⟩ }
  if id ≠ "" ∧ jsIncludes id "__ts_" then
    let sigEncoded := ((jsSplit id "__ts_").get? 1).getD ""
    if sigEncoded ≠ "" then
      match dec sigEncoded with
      | some sig => { base with thoughtSignature := some sig }
      | none => base
    else base
  else base

/-- The block loop of one message: returns the parts of the message
being assembled and the separate `role: "function"` messages pushed
directly onto `contents` for `tool_result` blocks, both in encounter
order. -/
def convertBlockList (dec : String → Option String) :
    List CBlockIn → List GeminiPart × List GeminiMessage
  | [] => ([], [])
  | b :: bs =>
    let rest := convertBlockList dec bs
    match b with
    | CBlockIn.text s => ({ text := some s } :: rest.1, rest.2)
    | CBlockIn.image mt d =>
      ({ inlineData := some ⟨jsOrStr mt "image/png", d⟩ } :: rest.1, rest.2)
    | CBlockIn.toolUse id name input => (toolUsePart dec id name input :: rest.1, rest.2)
    | CBlockIn.toolResult tuid content =>
      let respText := match content with | JVal.str s => s | w => stringifyJ w
      (rest.1,
       { role := "function",
         parts := [{ functionResponse := some ⟨tuid, respText⟩ }] } :: rest.2)
    | CBlockIn.otherB _ => rest

/-- Conversion of one Claude message: the `tool_result` side messages
come first (they are pushed during the loop), then the assembled
message when it has at least one part; `assistant` is renamed to
`model`. -/
def convertMessage (dec : String → Option String) (msg : ClaudeMessage) : List GeminiMessage :=
  let parts :=
    match msg.content with
    | MsgContent.str s => (([({ text := some s } : GeminiPart)], ([] : List GeminiMessage)))
    | MsgContent.blocks bs => convertBlockList dec bs
    | MsgContent.otherC _ => ([], [])
  parts.2 ++
    (if parts.1.isEmpty then []
     else [{ role := if msg.role = "assistant" then "model" else msg.role, parts := parts.1 }])

/-- The `i.text || i` mapping of a system array item followed by the
string coercion of `Array.prototype.join`; the coercion of a non-string
value is modelled by its JSON rendering. -/
def sysItemText (i : JVal) : String :=
  let t := match i with
    | JVal.obj kvs => getV kvs "text"
    | _ => JVal.null
  let chosen := if truthy t then t else i
  match chosen with
  | JVal.str s => s
  | w => stringifyJ w

/-- The `systemInstruction` text: a string is kept, an array is joined
with blank lines; any other truthy value is modelled by its JSON
rendering (the source would store the raw value). -/
def sysToText : JVal → String
  | JVal.str s => s
  | JVal.arr xs => String.intercalate "\n\n" (xs.map sysItemText)
  | w => stringifyJ w

/-- Embedding of `transformClaudeToGemini` (`transform.ts`),
parameterised by the `decodeURIComponent` model `dec`. -/
def transformClaudeToGemini (dec : String → Option String)
    (req : ClaudeRequest) (modelId : String) : GeminiPayload :=
  let sysInstr :=
    match req.system with
    | some v => if truthy v then some (sysToText v) else none
    | none => none
  let contents := req.messages.flatMap (convertMessage dec)
  let genCfg : GenerationConfig :=
    { temperature := req.temperature,
      maxOutputTokens := req.maxTokens,
      stopSequences :=
        match req.stopSequences with
        | some v => if truthy v ∧ isArr v then some v else none
        | none => none,
      topP := req.topP,
      topK := req.topK }
  let toolDecls :=
    match req.tools with
    | some ts =>
      some (ts.map (fun t =>
        ({ name := t.name, description := t.description,
           parameters := cleanJ t.inputSchema } : FunctionDecl)))
    | none => none
  let thinkingLevel :=
    match req.thinking with
    | some cfg =>
      if jsIncludes modelId "gemini-3" then
        some (if cfg.budgetTokens ≥ 16000 then "high" else "low")
      else none
    | none => none
  let thinkingBudget :=
    match req.thinking with
    | some cfg =>
      if jsIncludes modelId "gemini-3" then none
      else some (min cfg.budgetTokens 24576)
    | none => none
  { contents := contents,
    generationConfig := genCfg,
    systemInstruction := sysInstr,
    tools := toolDecls,
    thinkingLevel := thinkingLevel,
    thinkingConfigBudget := thinkingBudget }

/-!
Embedding of the stream re-emitter of
`GeminiHandler.handleStreamingResponse` (`gemini-handler.ts`).

The SSE byte/line framing and JSON parsing are upstream of the state
machine (blank/comment/`[DONE]` lines and malformed frames are skipped
without touching any state); a session is therefore modelled by the
list of successfully decoded frames, in order.  The nondeterministic
tool-use id (`Date.now` + `Math.random`) is modelled by a deterministic
fresh-id supply `mkToolId` fed from a counter; no claim depends on the
id text.  The message id and model name are parameters.
-/

/-- The usage tally tracked by the stream loop (`promptTokenCount || 0`,
`candidatesTokenCount || 0`). -/
structure Usage where
  inputTokens : Nat
  outputTokens : Nat
deriving DecidableEq

/-- The `content_block` payload of a `content_block_start` event. -/
inductive ContentBlock where
  | text (t : String)
  | toolUse (id : String) (name : String)
deriving DecidableEq

/-- The `delta` payload of a `content_block_delta` event. -/
inductive Delta where
  | textDelta (t : String)
  | inputJsonDelta (json : String)
deriving DecidableEq

/-- The outbound Claude stream events sent by the handler. A
`messageDelta` usage of `none` models the `{ output_tokens: 0 }`
fallback used when no usage metadata was ever seen; constant fields
(`stop_sequence: null`, the fixed message envelope of `message_start`
beyond its placeholder usage) are elided. -/
inductive SSEEvent where
  | messageStart (msgId : String) (model : String) (usage : Usage)
  | contentBlockStart (index : Int) (block : ContentBlock)
  | contentBlockDelta (index : Int) (delta : Delta)
  | contentBlockStop (index : Int)
  | messageDelta (stopReason : Option String) (usage : Option Usage)
  | messageStop
  | errorEvent (message : String)
deriving DecidableEq

/-- One accumulated tool record (`tools.set(toolIdx, {id, name, args})`). -/
structure ToolRecord where
  id : String
  name : String
  args : JVal

/-- The per-session mutable state of the read loop (`usage`,
`finalized`, `textStarted`, `textIdx`, `curIdx`, `accumulatedText`,
`tools`), plus the fresh-id counter modelling the tool id generator. -/
structure StreamState where
  usage : Option Usage
  finalized : Bool
  textStarted : Bool
  textIdx : Int
  curIdx : Int
  accumulatedText : String
  tools : List (Int × ToolRecord)
  toolCounter : Nat

/-- The state at the top of the read loop (`textIdx = -1`,
`curIdx = 0`). -/
def initState : StreamState :=
  { usage := none, finalized := false, textStarted := false, textIdx := -1,
    curIdx := 0, accumulatedText := "", tools := [], toolCounter := 0 }

/-- Deterministic model of the generated tool-use id. -/
def mkToolId (n : Nat) : String := "toolu_" ++ toString n

/-- One Gemini part of a streamed frame (`part.text`,
`part.functionCall`). -/
structure GPart where
  text : Option String := none
  functionCall : Option FCall := none

/-- The `content` object of a streamed candidate (`content.parts`). -/
structure GContent where
  parts : Option (List GPart) := none

/-- One streamed candidate. -/
structure Candidate where
  content : Option GContent := none
  finishReason : Option String := none

/-- The `usageMetadata` object of a streamed frame. -/
structure UsageMetadata where
  promptTokenCount : Option Nat := none
  candidatesTokenCount : Option Nat := none

/-- One decoded upstream frame (an absent `candidates` field is
modelled by the empty list, indistinguishable to the handler). -/
structure Chunk where
  candidates : List Candidate := []
  usageMetadata : Option UsageMetadata := none

/-- Processing of one part of the first candidate: a truthy `text`
opens the text block on first sight and appends a text delta; a
`functionCall` emits a fully-formed, self-closing tool block at a
freshly allocated index. -/
def processPart (st : StreamState) (p : GPart) : StreamState × List SSEEvent :=
  let r1 :=
    match p.text with
    | some s =>
      if s ≠ "" then
        let r0 :=
          if st.textStarted then (st, ([] : List SSEEvent))
          else
            ({ st with textStarted := true, textIdx := st.curIdx, curIdx := st.curIdx + 1 },
             [SSEEvent.contentBlockStart st.curIdx (ContentBlock.text "")])
        ({ r0.1 with accumulatedText := r0.1.accumulatedText ++ s },
         r0.2 ++ [SSEEvent.contentBlockDelta r0.1.textIdx (Delta.textDelta s)])
      else (st, [])
    | none => (st, [])
  match p.functionCall with
  | some fc =>
    let toolId := mkToolId r1.1.toolCounter
    let toolIdx := r1.1.curIdx
    ({ r1.1 with curIdx := r1.1.curIdx + 1, toolCounter := r1.1.toolCounter + 1,
                 tools := r1.1.tools ++ [(toolIdx, ⟨toolId, fc.name, fc.args⟩)] },
     r1.2 ++ [SSEEvent.contentBlockStart toolIdx (ContentBlock.toolUse toolId fc.name),
              SSEEvent.contentBlockDelta toolIdx (Delta.inputJsonDelta (stringifyJ fc.args)),
              SSEEvent.contentBlockStop toolIdx])
  | none => r1

/-- The part loop over one frame. -/
def foldParts : StreamState → List GPart → StreamState × List SSEEvent
  | st, [] => (st, [])
  | st, p :: ps =>
    let r1 := processPart st p
    let r2 := foldParts r1.1 ps
    (r2.1, r1.2 ++ r2.2)

/-- Processing of one decoded frame: take the first candidate (skip the
frame otherwise), process its parts, overwrite the usage tally when the
frame carries `usageMetadata`, then handle a truthy `finishReason` once
(guarded by `finalized`): close an open text block and emit the
`message_delta`. -/
def processChunk (st : StreamState) (c : Chunk) : StreamState × List SSEEvent :=
  match c.candidates.head? with
  | none => (st, [])
  | some cand =>
    let parts := (cand.content.bind GContent.parts).getD []
    let r := foldParts st parts
    let st2 :=
      match c.usageMetadata with
      | some um =>
        { r.1 with usage := some ⟨um.promptTokenCount.getD 0, um.candidatesTokenCount.getD 0⟩ }
      | none => r.1
    match cand.finishReason with
    | some fr =>
      if fr ≠ "" ∧ st2.finalized = false then
        let closeEvs :=
          if st2.textStarted then [SSEEvent.contentBlockStop st2.textIdx] else []
        let stopReason :=
          if fr = "STOP" then some "end_turn"
          else if fr = "MAX_TOKENS" then some "max_tokens"
          else none
        ({ st2 with finalized := true },
         r.2 ++ closeEvs ++ [SSEEvent.messageDelta stopReason st2.usage])
      else (st2, r.2)
    | none => (st2, r.2)

/-- The frame loop of the read loop. -/
def foldChunks : StreamState → List Chunk → StreamState × List SSEEvent
  | st, [] => (st, [])
  | st, c :: cs =>
    let r1 := processChunk st c
    let r2 := foldChunks r1.1 cs
    (r2.1, r1.2 ++ r2.2)

/-- The session-scoped counters of the handler
(`sessionInputTokens`, `sessionOutputTokens`). -/
structure SessionCounters where
  input : Nat
  output : Nat
deriving DecidableEq

/-- Result of one complete stream session. -/
structure SessionRun where
  events : List SSEEvent
  finalState : StreamState
  counters : SessionCounters

/-- One complete, non-erroring stream session over the decoded frames:
`message_start` first, the frame loop, the close/finalize sequence when
no finish reason was seen, `message_stop` last, and the session counter
update (input tokens replaced, output tokens summed) when any usage was
seen. -/
def runSession (msgId model : String) (counters : SessionCounters)
    (chunks : List Chunk) : SessionRun :=
  let startEv := SSEEvent.messageStart msgId model ⟨100, 1⟩
  let r := foldChunks initState chunks
  let finalEvs :=
    if r.1.finalized then ([] : List SSEEvent)
    else
      (if r.1.textStarted then [SSEEvent.contentBlockStop r.1.textIdx] else []) ++
      [SSEEvent.messageDelta (some "end_turn") r.1.usage]
  let counters2 :=
    match r.1.usage with
    | some u => { input := u.inputTokens, output := counters.output + u.outputTokens }
    | none => counters
  { events := startEv :: r.2 ++ finalEvs ++ [SSEEvent.messageStop],
    finalState := r.1,
    counters := counters2 }

/-- A session whose read loop raises after processing `chunks` frames
(for example on a failing `reader.read()`): the catch block emits a
final `error` event and closes; no `message_stop` is sent and the
session counters are not updated. -/
def runSessionAborted (msgId model : String) (chunks : List Chunk)
    (errMsg : String) : List SSEEvent :=
  let startEv := SSEEvent.messageStart msgId model ⟨100, 1⟩
  let r := foldChunks initState chunks
  startEv :: r.2 ++ [SSEEvent.errorEvent errMsg]

/-- Indices of the `content_block_start` events of an event list. -/
def startIndices (evs : List SSEEvent) : List Int :=
  evs.filterMap fun e =>
    match e with
    | SSEEvent.contentBlockStart i _ => some i
    | _ => none

/-- The integer interval `[a, a + n)` as a list. -/
def intRange (a : Int) (n : Nat) : List Int :=
  (List.range n).map fun i => a + Int.ofNat i

/-- Last-wins combination of optional usages. -/
def oOr (a b : Option Usage) : Option Usage :=
  match a with
  | some x => some x
  | none => b

/-- The usage tally a frame contributes: present only when the frame
has a first candidate and carries `usageMetadata`. -/
def chunkUsage (c : Chunk) : Option Usage :=
  match c.candidates.head? with
  | none => none
  | some _ =>
    c.usageMetadata.map fun um =>
      ⟨um.promptTokenCount.getD 0, um.candidatesTokenCount.getD 0⟩

/-- The usage tally left by a frame list: the latest usage-carrying
frame wins. -/
def lastUsage : List Chunk → Option Usage
  | [] => none
  | c :: cs => oOr (lastUsage cs) (chunkUsage c)

/-- Sum of the `candidatesTokenCount` values over all frames carrying
usage metadata. This follows the words of the claim about session
output-token accounting, for comparison with what the code computes. -/
def claimOutputTokenSum (chunks : List Chunk) : Nat :=
  (chunks.filterMap (fun c =>
    c.usageMetadata.map (fun um => um.candidatesTokenCount.getD 0))).sum

/-! Concrete frames used by witnesses and counterexamples. -/

/-- Frame carrying the text part `"Hi"` only. -/
def frameHi : Chunk :=
  { candidates := [{ content := some { parts := some [{ text := some "Hi" }] } }] }

/-- Frame carrying the text part `" there"`, `finishReason: "STOP"` and
usage `{promptTokenCount: 10, candidatesTokenCount: 2}`. -/
def frameThere : Chunk :=
  { candidates :=
      [{ content := some { parts := some [{ text := some " there" }] },
         finishReason := some "STOP" }],
    usageMetadata := some { promptTokenCount := some 10, candidatesTokenCount := some 2 } }

/-- Frame with a text part and a finish reason (used to reach a
finalized state). -/
def frameFinish : Chunk :=
  { candidates :=
      [{ content := some { parts := some [{ text := some "Hi" }] },
         finishReason := some "STOP" }] }

/-- A late frame carrying only a function-call part. -/
def frameLateTool : Chunk :=
  { candidates :=
      [{ content := some
          { parts := some [{ functionCall := some ⟨"f", JVal.obj [("a", JVal.num 1)]⟩ }] } }] }

/-- The state after processing `frameFinish` from the initial state:
text block open at index 0, `finalized` set. -/
def stateAfterFinish : StreamState := (processChunk initState frameFinish).1

/-- First usage-bearing frame of the two-frame usage scenario
(`candidatesTokenCount: 2`). -/
def frameUsage1 : Chunk :=
  { candidates := [{}],
    usageMetadata := some { promptTokenCount := some 10, candidatesTokenCount := some 2 } }

/-- Second usage-bearing frame of the two-frame usage scenario
(`promptTokenCount: 11`, `candidatesTokenCount: 5`, finish). -/
def frameUsage2 : Chunk :=
  { candidates := [{ finishReason := some "STOP" }],
    usageMetadata := some { promptTokenCount := some 11, candidatesTokenCount := some 5 } }

/-- A part carrying only the function call `{name: "f", args: {a: 1}}`. -/
def partToolOnly : GPart :=
  { functionCall := some ⟨"f", JVal.obj [("a", JVal.num 1)]⟩ }

/-- A request object containing drop-list keys, used as witness input. -/
def reqWithDropKeys : Obj :=
  [("model", JVal.str "gpt-4"), ("seed", JVal.num 1), ("user", JVal.str "u"),
   ("messages", JVal.arr [])]

/-! Theorems. -/

/-- C10: `transformOpenAIToClaude` returns an empty dropped-parameter
list for every input payload — it never invokes the drop logic of the
sanitizer, even when drop-list keys are present. -/
theorem c10_no_dropped_params (input : Obj) :
    (transformOpenAIToClaude input).droppedParams = [] := rfl

/-- C5: on the two-frame upstream input (`"Hi"`, then `" there"` with
`finishReason: "STOP"` and usage `{10, 2}`) the re-emitter emits
exactly `message_start`, `content_block_start(text, 0)`,
`content_block_delta("Hi")`, `content_block_delta(" there")`,
`content_block_stop(0)`, `message_delta(end_turn, {input 10, output 2})`,
`message_stop`, and nothing else. -/
theorem c5_exact_sequence (msgId model : String) (counters : SessionCounters) :
    (runSession msgId model counters [frameHi, frameThere]).events =
      [SSEEvent.messageStart msgId model ⟨100, 1⟩,
       SSEEvent.contentBlockStart 0 (ContentBlock.text ""),
       SSEEvent.contentBlockDelta 0 (Delta.textDelta "Hi"),
       SSEEvent.contentBlockDelta 0 (Delta.textDelta " there"),
       SSEEvent.contentBlockStop 0,
       SSEEvent.messageDelta (some "end_turn") (some ⟨10, 2⟩),
       SSEEvent.messageStop] := rfl

/-- C1 counterexample: on the exception path the last event emitted is
the `error` event, not `message_stop` — refuting the claim that every
path ends the outbound stream with `message_stop`. -/
theorem c1_error_path_counterexample :
    (runSessionAborted "m" "g" [] "boom").getLast? =
        some (SSEEvent.errorEvent "boom") ∧
      SSEEvent.errorEvent "boom" ≠ SSEEvent.messageStop := by
  decide

/-- C2 counterexample: after the finalized flag is set (by
`frameFinish`), a late frame carrying a function-call part still emits
a `content_block_stop` event — refuting the claim that no block-close
event is emitted after finalization for any content of a late frame. -/
theorem c2_late_tool_counterexample :
    stateAfterFinish.finalized = true ∧
      SSEEvent.contentBlockStop 1 ∈ (processChunk stateAfterFinish frameLateTool).2 := by
  decide

/-- C3 counterexample: with two usage-bearing frames
(`candidatesTokenCount` 2 then 5), the session output counter increases
by 5 (the latest value only), not by the claimed sum 7. -/
theorem c3_sum_counterexample :
    (runSession "m" "g" ⟨0, 0⟩ [frameUsage1, frameUsage2]).counters.output = 5 ∧
      claimOutputTokenSum [frameUsage1, frameUsage2] = 7 ∧ (5 : Nat) ≠ 7 := by
  decide

/-- C6: a part carrying a function call makes the re-emitter emit
exactly three events in immediate succession at one freshly allocated
index — `content_block_start` (tool_use, generated id, the call name),
`content_block_delta` (input_json_delta whose payload is the JSON
serialization of the whole argument object), `content_block_stop` — and
the index counter advances by one; the arguments are never streamed
incrementally. -/
theorem c6_tool_call_block (st : StreamState) (p : GPart) (fc : FCall)
    (ht : p.text = none) (hf : p.functionCall = some fc) :
    (processPart st p).2 =
        [SSEEvent.contentBlockStart st.curIdx
           (ContentBlock.toolUse (mkToolId st.toolCounter) fc.name),
         SSEEvent.contentBlockDelta st.curIdx
           (Delta.inputJsonDelta (stringifyJ fc.args)),
         SSEEvent.contentBlockStop st.curIdx] ∧
      (processPart st p).1.curIdx = st.curIdx + 1 := by
  simp [processPart, ht, hf]

/-- C6 witness: the theorem applied to the concrete part
`{functionCall: {name: "f", args: {a: 1}}}` in the initial state. -/
theorem c6_tool_call_block_witness :
    (partToolOnly.text = none ∧
        partToolOnly.functionCall = some ⟨"f", JVal.obj [("a", JVal.num 1)]⟩) ∧
      (processPart initState partToolOnly).2 =
        [SSEEvent.contentBlockStart initState.curIdx
           (ContentBlock.toolUse (mkToolId initState.toolCounter) "f"),
         SSEEvent.contentBlockDelta initState.curIdx
           (Delta.inputJsonDelta (stringifyJ (JVal.obj [("a", JVal.num 1)]))),
         SSEEvent.contentBlockStop initState.curIdx] :=
  ⟨⟨rfl, rfl⟩,
   (c6_tool_call_block initState partToolOnly ⟨"f", JVal.obj [("a", JVal.num 1)]⟩ rfl rfl).1⟩

/-- C1 (amended): on every non-erroring path — finish reason seen or
stream end without one — the last event of the outbound stream is
`message_stop`; on the exception path the last event is the `error`
event, after which the stream closes. -/
theorem c1_last_event (msgId model : String) (counters : SessionCounters)
    (chunks chunksErr : List Chunk) (errMsg : String) :
    ((runSession msgId model counters chunks).events).getLast? =
        some SSEEvent.messageStop ∧
      (runSessionAborted msgId model chunksErr errMsg).getLast? =
        some (SSEEvent.errorEvent errMsg) :=
  ⟨List.getLast?_concat _, List.getLast?_concat _⟩

/-- Last-wins combination is associative. -/
theorem oOr_assoc (a b c : Option Usage) : oOr (oOr a b) c = oOr a (oOr b c) := by
  cases a <;> simp [oOr]

/-- Processing one part changes neither the finalized flag nor the
usage tally. -/
theorem processPart_pres (st : StreamState) (p : GPart) :
    (processPart st p).1.finalized = st.finalized ∧
      (processPart st p).1.usage = st.usage := by
  cases ht : p.text <;> cases hf : p.functionCall <;>
    simp [processPart, ht, hf] <;> split_ifs <;> simp

/-- The part loop changes neither the finalized flag nor the usage
tally. -/
theorem foldParts_pres : ∀ (ps : List GPart) (st : StreamState),
    (foldParts st ps).1.finalized = st.finalized ∧
      (foldParts st ps).1.usage = st.usage := by
  intro ps
  induction ps with
  | nil => intro st; simp [foldParts]
  | cons p ps ih =>
    intro st
    have h1 := processPart_pres st p
    have h2 := ih (processPart st p).1
    simp only [foldParts]
    exact ⟨h2.1.trans h1.1, h2.2.trans h1.2⟩

/-- Processing one frame leaves the usage of the frame when it carries
one (with a first candidate), else the previous usage. -/
theorem processChunk_usage (st : StreamState) (c : Chunk) :
    (processChunk st c).1.usage = oOr (chunkUsage c) st.usage := by
  unfold processChunk chunkUsage
  cases hc : c.candidates.head? with
  | none => simp [oOr]
  | some cand =>
    have hfold := (foldParts_pres ((cand.content.bind GContent.parts).getD []) st).2
    cases hum : c.usageMetadata <;> cases hfr : cand.finishReason <;>
      simp [hum, hfr, oOr, hfold] <;> split_ifs <;> simp [hfold]

/-- The frame loop leaves the latest usage of the frame list, else the
initial usage. -/
theorem foldChunks_usage : ∀ (chunks : List Chunk) (st : StreamState),
    (foldChunks st chunks).1.usage = oOr (lastUsage chunks) st.usage := by
  intro chunks
  induction chunks with
  | nil => intro st; simp [foldChunks, lastUsage, oOr]
  | cons c cs ih =>
    intro st
    simp only [foldChunks, lastUsage]
    rw [ih (processChunk st c).1, processChunk_usage]
    exact (oOr_assoc _ _ _).symm

/-- C3 (amended): at session end the session counters are updated from
the usage of the latest usage-carrying frame only — the input counter
is replaced by its `promptTokenCount` and the output counter increases
by its `candidatesTokenCount` alone (usage is overwritten per frame,
last seen wins; values of earlier frames are not summed). -/
theorem c3_session_counters (msgId model : String) (counters : SessionCounters)
    (chunks : List Chunk) (u : Usage) (h : lastUsage chunks = some u) :
    (runSession msgId model counters chunks).counters =
      ⟨u.inputTokens, counters.output + u.outputTokens⟩ := by
  have hu : (foldChunks initState chunks).1.usage = some u := by
    rw [foldChunks_usage, h]; rfl
  simp [runSession, hu]

/-- C3 witness: the amended theorem applied to the two-frame usage
scenario (latest frame `{11, 5}`); only 5 is added to the output
counter. -/
theorem c3_session_counters_witness :
    lastUsage [frameUsage1, frameUsage2] = some ⟨11, 5⟩ ∧
      (runSession "m" "g" ⟨0, 0⟩ [frameUsage1, frameUsage2]).counters = ⟨11, 0 + 5⟩ :=
  ⟨by decide,
   c3_session_counters "m" "g" ⟨0, 0⟩ [frameUsage1, frameUsage2] ⟨11, 5⟩ (by decide)⟩

/-- Events emitted for one part: the index counter never decreases, no
`message_delta` is emitted, and every `content_block_stop` emitted
belongs to a block allocated at or after the current index counter. -/
theorem processPart_events (st : StreamState) (p : GPart) :
    st.curIdx ≤ (processPart st p).1.curIdx ∧
      (∀ sr u, SSEEvent.messageDelta sr u ∉ (processPart st p).2) ∧
      (∀ i, SSEEvent.contentBlockStop i ∈ (processPart st p).2 → st.curIdx ≤ i) := by
  cases ht : p.text <;> cases hf : p.functionCall <;>
    simp [processPart, ht, hf] <;> split_ifs <;> (simp; try omega)

/-- Events emitted by the part loop: the index counter never decreases,
no `message_delta` is emitted, and every `content_block_stop` belongs
to a block allocated at or after the initial index counter. -/
theorem foldParts_events : ∀ (ps : List GPart) (st : StreamState),
    st.curIdx ≤ (foldParts st ps).1.curIdx ∧
      (∀ sr u, SSEEvent.messageDelta sr u ∉ (foldParts st ps).2) ∧
      (∀ i, SSEEvent.contentBlockStop i ∈ (foldParts st ps).2 → st.curIdx ≤ i) := by
  intro ps
  induction ps with
  | nil => intro st; simp [foldParts]
  | cons p ps ih =>
    intro st
    obtain ⟨h1c, h1m, h1s⟩ := processPart_events st p
    obtain ⟨h2c, h2m, h2s⟩ := ih (processPart st p).1
    simp only [foldParts, List.mem_append]
    refine ⟨le_trans h1c h2c, ?_, ?_⟩
    · intro sr u hmem
      rcases hmem with h | h
      · exact h1m sr u h
      · exact h2m sr u h
    · intro i hmem
      rcases hmem with h | h
      · exact h1s i h
      · exact le_trans h1c (h2s i h)

/-- C2 (amended): once the finalized flag is set, a later frame emits
no further `message_delta` and never closes a previously opened block —
every `content_block_stop` it can emit belongs to a freshly allocated
tool block of that same frame (index at or above the current counter);
late function-call parts still emit their self-closing tool blocks. -/
theorem c2_after_finalized (st : StreamState) (c : Chunk)
    (h : st.finalized = true) :
    (∀ sr u, SSEEvent.messageDelta sr u ∉ (processChunk st c).2) ∧
      (∀ i, SSEEvent.contentBlockStop i ∈ (processChunk st c).2 → st.curIdx ≤ i) := by
  unfold processChunk
  cases hc : c.candidates.head? with
  | none => simp
  | some cand =>
    have hfin := (foldParts_pres ((cand.content.bind GContent.parts).getD []) st).1
    obtain ⟨_, hm, hs⟩ := foldParts_events ((cand.content.bind GContent.parts).getD []) st
    cases hum : c.usageMetadata <;> cases hfr : cand.finishReason <;>
      simp [hum, hfr, hfin, h] <;>
      exact ⟨fun sr u hmem => hm sr u hmem, fun i hmem => hs i hmem⟩

/-- C2 witness: the amended theorem applied to the finalized state
reached through `frameFinish` and the late function-call frame. -/
theorem c2_after_finalized_witness :
    stateAfterFinish.finalized = true ∧
      SSEEvent.messageDelta (some "end_turn") none ∉
        (processChunk stateAfterFinish frameLateTool).2 :=
  ⟨by decide,
   (c2_after_finalized stateAfterFinish frameLateTool (by decide)).1 (some "end_turn") none⟩

/-- `startIndices` distributes over append. -/
theorem startIndices_append (a b : List SSEEvent) :
    startIndices (a ++ b) = startIndices a ++ startIndices b :=
  List.filterMap_append a b _

/-- Length of an integer interval. -/
theorem length_intRange (a : Int) (n : Nat) : (intRange a n).length = n := by
  unfold intRange
  rw [List.length_map, List.length_range]

/-- The empty integer interval. -/
theorem intRange_zero (a : Int) : intRange a 0 = [] := rfl

/-- The one-element integer interval. -/
theorem intRange_one (a : Int) : intRange a 1 = [a] := by
  unfold intRange
  rw [show List.range 1 = [0] from rfl]
  simp

/-- The two-element integer interval. -/
theorem intRange_two (a : Int) : intRange a 2 = [a, a + 1] := by
  unfold intRange
  rw [show List.range 2 = [0, 1] from rfl]
  simp

/-- Concatenation of adjacent integer intervals. -/
theorem intRange_add (a : Int) (n m : Nat) :
    intRange a n ++ intRange (a + (n : Int)) m = intRange a (n + m) := by
  unfold intRange
  rw [List.range_add, List.map_append, List.map_map]
  congr 1
  apply List.map_congr_left
  intro i _
  simp only [Function.comp_apply, Int.ofNat_eq_coe]
  push_cast
  ring

/-- Start indices emitted for one part: consecutive fresh indices from
the current counter, which advances by their number. -/
theorem processPart_starts (st : StreamState) (p : GPart) :
    ∃ k : Nat, startIndices (processPart st p).2 = intRange st.curIdx k ∧
      (processPart st p).1.curIdx = st.curIdx + (k : Int) := by
  cases ht : p.text with
  | none =>
    cases hf : p.functionCall with
    | none => exact ⟨0, by simp [processPart, ht, hf, startIndices, intRange_zero], by simp [processPart, ht, hf]⟩
    | some fc =>
      refine ⟨1, ?_, ?_⟩
      · simp [processPart, ht, hf, startIndices, intRange_one]
      · simp [processPart, ht, hf]
  | some s =>
    by_cases hs : s = ""
    · cases hf : p.functionCall with
      | none => exact ⟨0, by simp [processPart, ht, hf, hs, startIndices, intRange_zero], by simp [processPart, ht, hf, hs]⟩
      | some fc =>
        refine ⟨1, ?_, ?_⟩
        · simp [processPart, ht, hf, hs, startIndices, intRange_one]
        · simp [processPart, ht, hf, hs]
    · by_cases hts : st.textStarted
      · cases hf : p.functionCall with
        | none => exact ⟨0, by simp [processPart, ht, hf, hs, hts, startIndices, intRange_zero], by simp [processPart, ht, hf, hs, hts]⟩
        | some fc =>
          refine ⟨1, ?_, ?_⟩
          · simp [processPart, ht, hf, hs, hts, startIndices, intRange_one]
          · simp [processPart, ht, hf, hs, hts]
      · cases hf : p.functionCall with
        | none =>
          refine ⟨1, ?_, ?_⟩
          · simp [processPart, ht, hf, hs, hts, startIndices, intRange_one]
          · simp [processPart, ht, hf, hs, hts]
        | some fc =>
          refine ⟨2, ?_, ?_⟩
          · simp [processPart, ht, hf, hs, hts, startIndices, intRange_two]
          · simp [processPart, ht, hf, hs, hts]
            ring

/-- Start indices emitted by the part loop: consecutive fresh indices
from the current counter. -/
theorem foldParts_starts : ∀ (ps : List GPart) (st : StreamState),
    ∃ k : Nat, startIndices (foldParts st ps).2 = intRange st.curIdx k ∧
      (foldParts st ps).1.curIdx = st.curIdx + (k : Int) := by
  intro ps
  induction ps with
  | nil => intro st; exact ⟨0, by simp [foldParts, startIndices, intRange_zero], by simp [foldParts]⟩
  | cons p ps ih =>
    intro st
    obtain ⟨k1, h1, h1c⟩ := processPart_starts st p
    obtain ⟨k2, h2, h2c⟩ := ih (processPart st p).1
    refine ⟨k1 + k2, ?_, ?_⟩
    · simp only [foldParts, startIndices_append, h1, h2, h1c]
      exact intRange_add st.curIdx k1 k2
    · simp only [foldParts, h2c, h1c]
      push_cast
      ring

/-- `startIndices` skips a leading `message_start` event. -/
theorem startIndices_msgStart (msgId model : String) (u : Usage)
    (l : List SSEEvent) :
    startIndices (SSEEvent.messageStart msgId model u :: l) = startIndices l := rfl

/-- A `content_block_stop` singleton contributes no start index. -/
theorem startIndices_stop (idx : Int) :
    startIndices [SSEEvent.contentBlockStop idx] = [] := rfl

/-- A `message_delta` singleton contributes no start index. -/
theorem startIndices_delta (sr : Option String) (uu : Option Usage) :
    startIndices [SSEEvent.messageDelta sr uu] = [] := rfl

/-- A `message_stop` singleton contributes no start index. -/
theorem startIndices_msgStop : startIndices [SSEEvent.messageStop] = [] := rfl

/-- The empty event list contributes no start index. -/
theorem startIndices_nil : startIndices [] = [] := rfl

/-- The finalize events (optional text-block close plus the final
`message_delta`) contribute no start index. -/
theorem startIndices_finals (b1 b2 : Bool) (idx : Int)
    (sr : Option String) (uu : Option Usage) :
    startIndices
      (if b1 then ([] : List SSEEvent)
       else (if b2 then [SSEEvent.contentBlockStop idx] else []) ++
         [SSEEvent.messageDelta sr uu]) = [] := by
  cases b1 <;> cases b2 <;> rfl

/-- Start indices emitted for one frame: consecutive fresh indices from
the current counter (the finish-handling events contain none). -/
theorem processChunk_starts (st : StreamState) (c : Chunk) :
    ∃ k : Nat, startIndices (processChunk st c).2 = intRange st.curIdx k ∧
      (processChunk st c).1.curIdx = st.curIdx + (k : Int) := by
  unfold processChunk
  cases hc : c.candidates.head? with
  | none => exact ⟨0, by simp [startIndices, intRange_zero], by simp⟩
  | some cand =>
    obtain ⟨k, hk, hkc⟩ := foldParts_starts ((cand.content.bind GContent.parts).getD []) st
    refine ⟨k, ?_, ?_⟩ <;>
      cases hum : c.usageMetadata <;> cases hfr : cand.finishReason <;>
        simp only [hum, hfr] <;>
        (try exact hk) <;> (try exact hkc) <;>
        split_ifs <;>
        simp only [startIndices_append, startIndices_stop, startIndices_delta,
          startIndices_nil, List.append_nil] <;>
        first
          | exact hk
          | exact hkc

/-- Start indices emitted by the frame loop: consecutive fresh indices
from the current counter. -/
theorem foldChunks_starts : ∀ (chunks : List Chunk) (st : StreamState),
    ∃ k : Nat, startIndices (foldChunks st chunks).2 = intRange st.curIdx k ∧
      (foldChunks st chunks).1.curIdx = st.curIdx + (k : Int) := by
  intro chunks
  induction chunks with
  | nil => intro st; exact ⟨0, by simp [foldChunks, startIndices, intRange_zero], by simp [foldChunks]⟩
  | cons c cs ih =>
    intro st
    obtain ⟨k1, h1, h1c⟩ := processChunk_starts st c
    obtain ⟨k2, h2, h2c⟩ := ih (processChunk st c).1
    refine ⟨k1 + k2, ?_, ?_⟩
    · simp only [foldChunks, startIndices_append, h1, h2, h1c]
      exact intRange_add st.curIdx k1 k2
    · simp only [foldChunks, h2c, h1c]
      push_cast
      ring

/-- C4: over a whole session, the indices of the emitted
`content_block_start` events are exactly `0, 1, 2, …` in order —
strictly increasing from 0 with no index reused, for any number and
interleaving of text segments and tool calls. -/
theorem c4_block_indices (msgId model : String) (counters : SessionCounters)
    (chunks : List Chunk) :
    startIndices (runSession msgId model counters chunks).events =
      intRange 0
        (startIndices (runSession msgId model counters chunks).events).length := by
  obtain ⟨k, hk, _⟩ := foldChunks_starts chunks initState
  have hset : startIndices (runSession msgId model counters chunks).events = intRange 0 k := by
    simp only [runSession]
    rw [startIndices_append, startIndices_append, startIndices_msgStart,
      startIndices_msgStop, startIndices_finals, hk, List.append_nil, List.append_nil]
    rfl
  rw [hset, length_intRange]

/-- Lookup on a cons cell. -/
theorem getK_cons (kv : String × JVal) (o : Obj) (k : String) :
    getK (kv :: o) k = if kv.1 == k then some kv.2 else getK o k := by
  by_cases h : (kv.1 == k) = true
  · simp [getK, List.find?, h]
  · simp [getK, List.find?, h]

/-- Deletion on a cons cell. -/
theorem delK_cons (kv : String × JVal) (o : Obj) (k : String) :
    delK (kv :: o) k = if kv.1 == k then delK o k else kv :: delK o k := by
  unfold delK
  rw [List.filter_cons]
  by_cases h : (kv.1 == k) = true
  · have hkk : kv.1 = k := by simpa using h
    simp [h, hkk]
  · have hkk : ¬ kv.1 = k := by simpa using h
    simp [h, hkk]

/-- Looking up a key just deleted yields nothing. -/
theorem getK_delK_self (o : Obj) (k : String) : getK (delK o k) k = none := by
  induction o with
  | nil => rfl
  | cons kv o ih =>
    rw [delK_cons]
    by_cases h : (kv.1 == k) = true
    · rw [if_pos h]; exact ih
    · rw [if_neg h, getK_cons, if_neg h]; exact ih

/-- Deleting one key does not affect the lookup of another. -/
theorem getK_delK_ne (o : Obj) (k k' : String) (h : k' ≠ k) :
    getK (delK o k) k' = getK o k' := by
  induction o with
  | nil => rfl
  | cons kv o ih =>
    rw [delK_cons, getK_cons]
    by_cases h1 : (kv.1 == k) = true
    · rw [if_pos h1]
      have hkk : kv.1 = k := by simpa using h1
      have h2 : (kv.1 == k') = false := by
        simp only [beq_eq_false_iff_ne, hkk]
        exact fun he => h he.symm
      rw [h2]
      simp only [Bool.false_eq_true, if_false]
      exact ih
    · rw [if_neg h1, getK_cons]
      by_cases h2 : (kv.1 == k') = true
      · rw [if_pos h2, if_pos h2]
      · rw [if_neg h2, if_neg h2]; exact ih

/-- Overwriting one key in place does not affect the lookup of
another. -/
theorem getK_mapset_ne (o : Obj) (k k' : String) (v : JVal) (h : k' ≠ k) :
    getK (o.map (fun kv => if kv.1 == k then (kv.1, v) else kv)) k' = getK o k' := by
  induction o with
  | nil => rfl
  | cons kv o ih =>
    rw [List.map_cons, getK_cons, getK_cons]
    by_cases h1 : (kv.1 == k) = true
    · rw [if_pos h1]
      have hkk : kv.1 = k := by simpa using h1
      have h2 : (kv.1 == k') = false := by
        simp only [beq_eq_false_iff_ne, hkk]
        exact fun he => h he.symm
      rw [show ((kv.1, v) : String × JVal).1 = kv.1 from rfl, h2]
      simp only [Bool.false_eq_true, if_false]
      exact ih
    · rw [if_neg h1]
      by_cases h2 : (kv.1 == k') = true
      · rw [if_pos h2, if_pos h2]
      · rw [if_neg h2, if_neg h2]; exact ih

/-- Appending a fresh key does not affect the lookup of another. -/
theorem getK_append_single_ne (o : Obj) (k k' : String) (v : JVal) (h : k' ≠ k) :
    getK (o ++ [(k, v)]) k' = getK o k' := by
  induction o with
  | nil =>
    show getK [(k, v)] k' = none
    rw [getK_cons]
    have h2 : (k == k') = false := by
      simp only [beq_eq_false_iff_ne]
      exact fun he => h he.symm
    rw [show ((k, v) : String × JVal).1 = k from rfl, h2]
    simp only [Bool.false_eq_true, if_false]
    rfl
  | cons kv o ih =>
    rw [List.cons_append, getK_cons, getK_cons]
    by_cases h2 : (kv.1 == k') = true
    · rw [if_pos h2, if_pos h2]
    · rw [if_neg h2, if_neg h2]; exact ih

/-- Setting one key does not affect the lookup of another. -/
theorem getK_setK_ne (o : Obj) (k k' : String) (v : JVal) (h : k' ≠ k) :
    getK (setK o k v) k' = getK o k' := by
  unfold setK
  split_ifs with hf
  · exact getK_mapset_ne o k k' v h
  · exact getK_append_single_ne o k k' v h

/-- What the drop-list loop of `sanitizeRoot` does, for any
duplicate-free key list: it appends to the record exactly the listed
keys present on the object, and afterwards every listed key is gone
while the others are untouched. -/
theorem dropLoop_spec : ∀ (keys : List String) (req : Obj) (d : List String),
    keys.Nodup →
    (dropLoop keys req d).2 = d ++ keys.filter (fun k => (getK req k).isSome) ∧
      ∀ k', getK (dropLoop keys req d).1 k' =
        if k' ∈ keys then none else getK req k' := by
  intro keys
  induction keys with
  | nil =>
    intro req d _
    exact ⟨by simp [dropLoop], fun k' => by simp [dropLoop]⟩
  | cons k ks ih =>
    intro req d hnd
    have hnd2 : ks.Nodup := (List.nodup_cons.mp hnd).2
    have hknotin : k ∉ ks := (List.nodup_cons.mp hnd).1
    by_cases hp : (getK req k).isSome
    · have hstep : dropLoop (k :: ks) req d = dropLoop ks (delK req k) (d ++ [k]) := by
        simp [dropLoop, hp]
      obtain ⟨ih1, ih2⟩ := ih (delK req k) (d ++ [k]) hnd2
      constructor
      · rw [hstep, ih1]
        have hsame : ks.filter (fun k2 => (getK (delK req k) k2).isSome) =
            ks.filter (fun k2 => (getK req k2).isSome) := by
          apply List.filter_congr
          intro k2 hk2
          have : k2 ≠ k := fun he => hknotin (he ▸ hk2)
          rw [getK_delK_ne _ _ _ this]
        rw [hsame, List.filter_cons, if_pos (by simpa using hp), List.append_assoc]
        rfl
      · intro k'
        rw [hstep, ih2 k']
        by_cases hmem : k' ∈ ks
        · simp [hmem]
        · by_cases hkk : k' = k
          · subst hkk
            simp [hmem, getK_delK_self]
          · simp [hmem, hkk, getK_delK_ne _ _ _ hkk]
    · have hstep : dropLoop (k :: ks) req d = dropLoop ks req d := by
        simp [dropLoop, hp]
      obtain ⟨ih1, ih2⟩ := ih req d hnd2
      constructor
      · rw [hstep, ih1, List.filter_cons, if_neg (by simpa using hp)]
      · intro k'
        rw [hstep, ih2 k']
        by_cases hmem : k' ∈ ks
        · simp [hmem]
        · by_cases hkk : k' = k
          · subst hkk
            simp [hmem, Option.not_isSome_iff_eq_none.mp hp]
          · simp [hmem, hkk]

/-- The stop-rename stage touches only `stop` and `stop_sequences`. -/
theorem stopStage_getK (req : Obj) (k : String) (h1 : k ≠ "stop")
    (h2 : k ≠ "stop_sequences") : getK (stopStage req) k = getK req k := by
  unfold stopStage
  cases hs : getK req "stop" with
  | none => rfl
  | some v => rw [getK_delK_ne _ _ _ h1, getK_setK_ne _ _ _ _ h2]

/-- The user stage touches only `user` and `metadata`. -/
theorem userStage_getK (req : Obj) (k : String) (h1 : k ≠ "user")
    (h2 : k ≠ "metadata") : getK (userStage req).1 k = getK req k := by
  unfold userStage
  cases hu : getK req "user" with
  | none => rfl
  | some u =>
    by_cases ht : truthy u
    · simp only [ht, if_true]
      rw [getK_delK_ne _ _ _ h1, getK_setK_ne _ _ _ _ h2]
    · simp [ht]

/-- What the user stage does to the `user` key and the record: either a
truthy present `user` is dropped and recorded, or nothing happens. -/
theorem userStage_spec (req : Obj) :
    ((userStage req).2 = ["user"] ∧ getK (userStage req).1 "user" = none ∧
        (getK req "user").isSome = true) ∨
      ((userStage req).2 = [] ∧ getK (userStage req).1 "user" = getK req "user") := by
  cases hu : getK req "user" with
  | none => exact Or.inr ⟨by simp [userStage, hu], by simp [userStage, hu]⟩
  | some u =>
    by_cases ht : truthy u
    · refine Or.inl ⟨by simp [userStage, hu, ht], ?_, by simp [hu]⟩
      simp only [userStage, hu, ht, if_true]
      exact getK_delK_self _ _
    · exact Or.inr ⟨by simp [userStage, hu, ht], by simp [userStage, hu, ht]⟩

/-- The max-tokens stage touches only `max_tokens`. -/
theorem maxTokensStage_getK (req : Obj) (k : String) (h : k ≠ "max_tokens") :
    getK (maxTokensStage req) k = getK req k := by
  unfold maxTokensStage
  cases hm : getK req "max_tokens" with
  | none => rw [getK_setK_ne _ _ _ _ h]
  | some v =>
    cases v <;> first
      | rw [getK_setK_ne _ _ _ _ h]
      | rfl

/-- Element count of a filtered duplicate-free list. -/
theorem count_filter_nodup {l : List String} (hl : l.Nodup) (p : String → Bool)
    (a : String) :
    (l.filter p).count a = if a ∈ l ∧ p a = true then 1 else 0 := by
  by_cases h : a ∈ l ∧ p a = true
  · rw [if_pos h]
    exact List.count_eq_one_of_mem (hl.filter p) (List.mem_filter.mpr ⟨h.1, h.2⟩)
  · rw [if_neg h]
    refine List.count_eq_zero_of_not_mem ?_
    intro hmem
    exact h (by simpa using List.mem_filter.mp hmem)

/-- Drop-list keys are distinct. -/
theorem dropKeys_nodup : DROP_KEYS.Nodup := by decide

/-- No drop-list key is one of the keys written by the other stages. -/
theorem dropKeys_disjoint : ∀ k ∈ DROP_KEYS,
    k ≠ "stop" ∧ k ≠ "stop_sequences" ∧ k ≠ "metadata" ∧ k ≠ "max_tokens" := by
  decide

/-- C8: after `sanitizeRoot`, no drop-list key remains on the request;
the returned dropped-key list contains each drop-list key exactly once
when it was present on the input and not at all otherwise, and contains
nothing outside the drop-list keys present on the input. -/
theorem c8_sanitize_drop_list (req : Obj) :
    (∀ k ∈ DROP_KEYS, getK (sanitizeRoot req).1 k = none) ∧
      (∀ k ∈ DROP_KEYS,
        (sanitizeRoot req).2.count k = if (getK req k).isSome then 1 else 0) ∧
      (∀ k ∈ (sanitizeRoot req).2, k ∈ DROP_KEYS ∧ (getK req k).isSome = true) := by
  have hdl := dropLoop_spec DROP_KEYS (userStage (stopStage req)).1
    (userStage (stopStage req)).2 dropKeys_nodup
  have hpres : ∀ k ∈ DROP_KEYS, k ≠ "user" →
      getK (userStage (stopStage req)).1 k = getK req k := by
    intro k hk hku
    obtain ⟨h1, h2, h3, _⟩ := dropKeys_disjoint k hk
    rw [userStage_getK _ _ hku h3, stopStage_getK _ _ h1 h2]
  have huser_mem : "user" ∈ DROP_KEYS := by decide
  have huser_stop : getK (stopStage req) "user" = getK req "user" := by
    obtain ⟨h1, h2, _, _⟩ := dropKeys_disjoint "user" huser_mem
    exact stopStage_getK _ _ h1 h2
  have hsan1 : (sanitizeRoot req).1 = maxTokensStage
      (dropLoop DROP_KEYS (userStage (stopStage req)).1 (userStage (stopStage req)).2).1 := rfl
  have hsan2 : (sanitizeRoot req).2 =
      (dropLoop DROP_KEYS (userStage (stopStage req)).1 (userStage (stopStage req)).2).2 := rfl
  refine ⟨?_, ?_, ?_⟩
  · intro k hk
    obtain ⟨_, _, _, h4⟩ := dropKeys_disjoint k hk
    rw [hsan1, maxTokensStage_getK _ _ h4, hdl.2 k, if_pos hk]
  · intro k hk
    rw [hsan2, hdl.1, List.count_append,
      count_filter_nodup dropKeys_nodup _ k]
    rcases userStage_spec (stopStage req) with ⟨hd, hnone, hsome⟩ | ⟨hd, hkeep⟩
    · rw [hd]
      by_cases hku : k = "user"
      · subst hku
        rw [huser_stop] at hsome
        simp [hnone, hsome]
      · have hpk := hpres k hk hku
        rw [hpk]
        by_cases hs : (getK req k).isSome
        · simp [hs, hk, hku]
        · simp [hs, hku]
    · rw [hd]
      by_cases hku : k = "user"
      · subst hku
        rw [hkeep, huser_stop]
        by_cases hs : (getK req "user").isSome
        · simp [hs, huser_mem]
        · simp [hs]
      · have hpk := hpres k hk hku
        rw [hpk]
        by_cases hs : (getK req k).isSome
        · simp [hs, hk]
        · simp [hs]
  · intro k hk
    rw [hsan2, hdl.1] at hk
    rcases List.mem_append.mp hk with hmem | hmem
    · rcases userStage_spec (stopStage req) with ⟨hd, _, hsome⟩ | ⟨hd, _⟩
      · rw [hd] at hmem
        have : k = "user" := by simpa using hmem
        subst this
        rw [huser_stop] at hsome
        exact ⟨huser_mem, hsome⟩
      · rw [hd] at hmem
        exact absurd hmem (List.not_mem_nil k)
    · obtain ⟨hkdl, hpr⟩ := List.mem_filter.mp hmem
      refine ⟨hkdl, ?_⟩
      by_cases hku : k = "user"
      · subst hku
        rcases userStage_spec (stopStage req) with ⟨_, hnone, hsome⟩ | ⟨_, hkeep⟩
        · rw [huser_stop] at hsome
          exact hsome
        · rw [hkeep, huser_stop] at hpr
          exact hpr
      · rw [hpres k hkdl hku] at hpr
        exact hpr

/-- C8 witness: the theorem applied to a request containing `seed` and
`user` (present drop-list keys) — both are gone afterwards and recorded
once. -/
theorem c8_sanitize_drop_list_witness :
    ("seed" ∈ DROP_KEYS ∧ "n" ∈ DROP_KEYS) ∧
      getK (sanitizeRoot reqWithDropKeys).1 "seed" = none ∧
      (sanitizeRoot reqWithDropKeys).2.count "n" =
        if (getK reqWithDropKeys "n").isSome then 1 else 0 :=
  ⟨⟨by decide, by decide⟩,
   (c8_sanitize_drop_list reqWithDropKeys).1 "seed" (by decide),
   (c8_sanitize_drop_list reqWithDropKeys).2.1 "n" (by decide)⟩

/-- C7: for a `tool_use` block whose id embeds a nonempty
thought-signature suffix (`…__ts_<sig>`), the part emitted by
`transformClaudeToGemini` carries `functionCall = {name, args}` with
nothing else inside it, and its sibling `thoughtSignature` field equals
the URL-decoding of the suffix — `some` of the decoded text when
decoding succeeds, omitted (`none`) when the decoder fails, the
conversion never failing either way. -/
theorem c7_thought_signature (dec : String → Option String) (id name : String)
    (input : JVal) (h1 : id ≠ "") (h2 : jsIncludes id "__ts_" = true)
    (h3 : ((jsSplit id "__ts_").get? 1).getD "" ≠ "") :
    (toolUsePart dec id name input).functionCall = some ⟨name, input⟩ ∧
      (toolUsePart dec id name input).thoughtSignature =
        dec (((jsSplit id "__ts_").get? 1).getD "") := by
  unfold toolUsePart
  rw [if_pos ⟨h1, h2⟩, if_pos h3]
  cases hd : dec (((jsSplit id "__ts_").get? 1).getD "") <;> simp [hd]

/-- C7 witness: the theorem applied to the id `toolu_1__ts_YWJj` with
the identity decoder (no percent escapes, so URL-decoding is the
identity); the extracted suffix is `YWJj`. -/
theorem c7_thought_signature_witness :
    ("toolu_1__ts_YWJj" ≠ "" ∧ jsIncludes "toolu_1__ts_YWJj" "__ts_" = true ∧
        ((jsSplit "toolu_1__ts_YWJj" "__ts_").get? 1).getD "" ≠ "" ∧
        ((jsSplit "toolu_1__ts_YWJj" "__ts_").get? 1).getD "" = "YWJj") ∧
      (toolUsePart (fun s => some s) "toolu_1__ts_YWJj" "f" JVal.null).thoughtSignature =
        (fun s => some s) (((jsSplit "toolu_1__ts_YWJj" "__ts_").get? 1).getD "") :=
  ⟨⟨by decide, by decide, by decide, by decide⟩,
   (c7_thought_signature (fun s => some s) "toolu_1__ts_YWJj" "f" JVal.null
     (by decide) (by decide) (by decide)).2⟩

/-- Cleaning preserves the JavaScript object-typedness of a value. -/
theorem isObjType_cleanJ (v : JVal) : isObjType (cleanJ v) = isObjType v := by
  cases v <;> simp [cleanJ, isObjType]

/-- Cleaning preserves arrayness of a value. -/
theorem isArr_cleanJ (v : JVal) : isArr (cleanJ v) = isArr v := by
  cases v <;> simp [cleanJ, isArr]

/-- Element-wise idempotence lifts to the array branch. -/
theorem cleanList_idem_of (xs : List JVal)
    (h : ∀ x ∈ xs, cleanJ (cleanJ x) = cleanJ x) :
    cleanList (cleanList xs) = cleanList xs := by
  induction xs with
  | nil => simp [cleanList]
  | cons x xs ih =>
    simp only [cleanList]
    rw [h x (List.mem_cons_self x xs),
      ih (fun y hy => h y (List.mem_cons_of_mem x hy))]

/-- Entry-wise idempotence lifts to the object branch. -/
theorem cleanKVs_idem_of (kvs : List (String × JVal))
    (h : ∀ kv ∈ kvs, cleanEntry kv.1 (cleanEntry kv.1 kv.2) = cleanEntry kv.1 kv.2) :
    cleanKVs (cleanKVs kvs) = cleanKVs kvs := by
  induction kvs with
  | nil => simp [cleanKVs]
  | cons kv kvs ih =>
    obtain ⟨k, v⟩ := kv
    have hh := h (k, v) (List.mem_cons_self _ _)
    have ht := ih (fun y hy => h y (List.mem_cons_of_mem _ hy))
    by_cases hu : k ∈ UNSUPPORTED_FIELDS
    · simp only [cleanKVs, if_pos hu]
      exact ht
    · simp only [cleanKVs, if_neg hu]
      rw [hh, ht]

/-- Value-wise idempotence lifts to the `properties` sub-loop. -/
theorem cleanPropKVs_idem_of (kvs : List (String × JVal))
    (h : ∀ kv ∈ kvs, cleanJ (cleanJ kv.2) = cleanJ kv.2) :
    cleanPropKVs (cleanPropKVs kvs) = cleanPropKVs kvs := by
  induction kvs with
  | nil => simp [cleanPropKVs]
  | cons kv kvs ih =>
    obtain ⟨k, v⟩ := kv
    simp only [cleanPropKVs]
    rw [h (k, v) (List.mem_cons_self _ _),
      ih (fun y hy => h y (List.mem_cons_of_mem _ hy))]

/-- The `properties` sub-loop is the identity on an index-keyed object
whose values are already clean. -/
theorem cleanPropKVs_idxKVs : ∀ (xs : List JVal) (i : Nat),
    (∀ x ∈ xs, cleanJ (cleanJ x) = cleanJ x) →
    cleanPropKVs (cleanIdxKVs i xs) = cleanIdxKVs i xs := by
  intro xs
  induction xs with
  | nil => intro i h; simp [cleanIdxKVs, cleanPropKVs]
  | cons x xs ih =>
    intro i h
    simp only [cleanIdxKVs, cleanPropKVs]
    rw [h x (List.mem_cons_self x xs),
      ih (i + 1) (fun y hy => h y (List.mem_cons_of_mem x hy))]

/-- Element-wise idempotence lifts to the generic array branch. -/
theorem cleanItems_idem_of (xs : List JVal)
    (h : ∀ x ∈ xs, cleanJ (cleanJ x) = cleanJ x) :
    cleanItems (cleanItems xs) = cleanItems xs := by
  induction xs with
  | nil => simp [cleanItems]
  | cons x xs ih =>
    have ht := ih (fun y hy => h y (List.mem_cons_of_mem x hy))
    by_cases ho : isObjType x = true
    · simp only [cleanItems, if_pos ho, if_pos ((isObjType_cleanJ x).trans ho)]
      rw [h x (List.mem_cons_self x xs), ht]
    · simp only [cleanItems, if_neg ho]
      rw [ht]

/-- Idempotence of one retained object entry, given idempotence on all
strictly smaller values. -/
theorem cleanEntry_idem_of (k : String) (v : JVal)
    (hJ : ∀ w : JVal, sizeOf w < sizeOf v → cleanJ (cleanJ w) = cleanJ w)
    (hE : ∀ (k' : String) (w : JVal), sizeOf w < sizeOf v →
      cleanEntry k' (cleanEntry k' w) = cleanEntry k' w) :
    cleanEntry k (cleanEntry k v) = cleanEntry k v := by
  cases v with
  | bool b =>
    have h1 : cleanEntry k (JVal.bool b) = JVal.bool b := by
      simp [cleanEntry, isObjType, isArr]
    rw [h1, h1]
  | num m =>
    have h1 : cleanEntry k (JVal.num m) = JVal.num m := by
      simp [cleanEntry, isObjType, isArr]
    rw [h1, h1]
  | str s =>
    have h1 : cleanEntry k (JVal.str s) = JVal.str s := by
      simp [cleanEntry, isObjType, isArr]
    rw [h1, h1]
  | null =>
    by_cases hp : k = "properties"
    · have h1 : cleanEntry k JVal.null = JVal.obj [] := by
        unfold cleanEntry
        rw [if_pos ⟨hp, rfl⟩]
      rw [h1]
      unfold cleanEntry
      rw [if_pos ⟨hp, rfl⟩]
      rfl
    · by_cases hi : k = "items"
      · have h1 : cleanEntry k JVal.null = JVal.null := by
          unfold cleanEntry
          rw [if_neg (fun hh => hp hh.1), if_pos ⟨hi, rfl⟩]
        rw [h1, h1]
      · have h1 : cleanEntry k JVal.null = JVal.null := by
          unfold cleanEntry
          rw [if_neg (fun hh => hp hh.1), if_neg (fun hh => hi hh.1),
            if_pos ⟨rfl, by simp [isArr]⟩]
        rw [h1, h1]
  | arr xs =>
    have hx : ∀ x ∈ xs, cleanJ (cleanJ x) = cleanJ x := by
      intro x hxm
      refine hJ x ?_
      have h1 := List.sizeOf_lt_of_mem hxm
      have h2 : sizeOf (JVal.arr xs) = 1 + sizeOf xs := by simp
      omega
    by_cases hp : k = "properties"
    · have h1 : cleanEntry k (JVal.arr xs) = JVal.obj (cleanIdxKVs 0 xs) := by
        unfold cleanEntry
        rw [if_pos ⟨hp, rfl⟩]
      have h2 : cleanEntry k (JVal.obj (cleanIdxKVs 0 xs)) =
          JVal.obj (cleanPropKVs (cleanIdxKVs 0 xs)) := by
        unfold cleanEntry
        rw [if_pos ⟨hp, rfl⟩]
      rw [h1, h2, cleanPropKVs_idxKVs xs 0 hx]
    · by_cases hi : k = "items"
      · have h1 : cleanEntry k (JVal.arr xs) = JVal.arr (cleanList xs) := by
          unfold cleanEntry
          rw [if_neg (fun hh => hp hh.1), if_pos ⟨hi, rfl⟩]
        have h2 : cleanEntry k (JVal.arr (cleanList xs)) =
            JVal.arr (cleanList (cleanList xs)) := by
          unfold cleanEntry
          rw [if_neg (fun hh => hp hh.1), if_pos ⟨hi, rfl⟩]
        rw [h1, h2, cleanList_idem_of xs hx]
      · have h1 : ∀ ys : List JVal, cleanEntry k (JVal.arr ys) = JVal.arr (cleanItems ys) := by
          intro ys
          unfold cleanEntry
          rw [if_neg (fun hh => hp hh.1), if_neg (fun hh => hi hh.1),
            if_neg (fun hh => hh.2 rfl),
            if_pos (show isArr (JVal.arr ys) = true from rfl)]
        rw [h1, h1, cleanItems_idem_of xs hx]
  | obj kvs =>
    have hkv : ∀ kv ∈ kvs, cleanJ (cleanJ kv.2) = cleanJ kv.2 := by
      intro kv hkvm
      refine hJ kv.2 ?_
      have h1 := List.sizeOf_lt_of_mem hkvm
      have h2 : sizeOf kv.2 < sizeOf kv := by
        obtain ⟨a, b⟩ := kv
        simp
      have h3 : sizeOf (JVal.obj kvs) = 1 + sizeOf kvs := by simp
      omega
    have hkvE : ∀ kv ∈ kvs, cleanEntry kv.1 (cleanEntry kv.1 kv.2) = cleanEntry kv.1 kv.2 := by
      intro kv hkvm
      refine hE kv.1 kv.2 ?_
      have h1 := List.sizeOf_lt_of_mem hkvm
      have h2 : sizeOf kv.2 < sizeOf kv := by
        obtain ⟨a, b⟩ := kv
        simp
      have h3 : sizeOf (JVal.obj kvs) = 1 + sizeOf kvs := by simp
      omega
    by_cases hp : k = "properties"
    · have h1 : ∀ l : List (String × JVal),
          cleanEntry k (JVal.obj l) = JVal.obj (cleanPropKVs l) := by
        intro l
        unfold cleanEntry
        rw [if_pos ⟨hp, rfl⟩]
      rw [h1, h1, cleanPropKVs_idem_of kvs hkv]
    · by_cases hi : k = "items"
      · have h1 : ∀ l : List (String × JVal),
            cleanEntry k (JVal.obj l) = JVal.obj (cleanKVs l) := by
          intro l
          unfold cleanEntry
          rw [if_neg (fun hh => hp hh.1), if_pos ⟨hi, rfl⟩]
        rw [h1, h1, cleanKVs_idem_of kvs hkvE]
      · have h1 : ∀ l : List (String × JVal),
            cleanEntry k (JVal.obj l) = JVal.obj (cleanKVs l) := by
          intro l
          unfold cleanEntry
          rw [if_neg (fun hh => hp hh.1), if_neg (fun hh => hi hh.1),
            if_pos ⟨rfl, by simp [isArr]⟩]
        rw [h1, h1, cleanKVs_idem_of kvs hkvE]

/-- Idempotence of the Gemini schema pruning, by strong induction on
the size of the value, simultaneously for whole values and retained
object entries. -/
theorem cleanJ_idem_aux : ∀ n : Nat, ∀ v : JVal, sizeOf v ≤ n →
    cleanJ (cleanJ v) = cleanJ v ∧
      ∀ k : String, cleanEntry k (cleanEntry k v) = cleanEntry k v := by
  intro n
  induction n with
  | zero =>
    intro v hv
    exfalso
    cases v <;> simp at hv
  | succ n ih =>
    intro v hv
    have hJ : ∀ w : JVal, sizeOf w < sizeOf v → cleanJ (cleanJ w) = cleanJ w := by
      intro w hw
      exact (ih w (by omega)).1
    have hE : ∀ (k' : String) (w : JVal), sizeOf w < sizeOf v →
        cleanEntry k' (cleanEntry k' w) = cleanEntry k' w := by
      intro k' w hw
      exact (ih w (by omega)).2 k'
    refine ⟨?_, fun k => cleanEntry_idem_of k v hJ hE⟩
    cases v with
    | null => simp [cleanJ]
    | bool b => simp [cleanJ]
    | num m => simp [cleanJ]
    | str s => simp [cleanJ]
    | arr xs =>
      have hx : ∀ x ∈ xs, cleanJ (cleanJ x) = cleanJ x := by
        intro x hxm
        refine hJ x ?_
        have h1 := List.sizeOf_lt_of_mem hxm
        have h2 : sizeOf (JVal.arr xs) = 1 + sizeOf xs := by simp
        omega
      rw [show cleanJ (JVal.arr xs) = JVal.arr (cleanList xs) from by simp [cleanJ],
        show cleanJ (JVal.arr (cleanList xs)) = JVal.arr (cleanList (cleanList xs)) from
          by simp [cleanJ],
        cleanList_idem_of xs hx]
    | obj kvs =>
      have hkvE : ∀ kv ∈ kvs,
          cleanEntry kv.1 (cleanEntry kv.1 kv.2) = cleanEntry kv.1 kv.2 := by
        intro kv hkvm
        refine hE kv.1 kv.2 ?_
        have h1 := List.sizeOf_lt_of_mem hkvm
        have h2 : sizeOf kv.2 < sizeOf kv := by
          obtain ⟨a, b⟩ := kv
          simp
        have h3 : sizeOf (JVal.obj kvs) = 1 + sizeOf kvs := by simp
        omega
      rw [show cleanJ (JVal.obj kvs) = JVal.obj (cleanKVs kvs) from by simp [cleanJ],
        show cleanJ (JVal.obj (cleanKVs kvs)) = JVal.obj (cleanKVs (cleanKVs kvs)) from
          by simp [cleanJ],
        cleanKVs_idem_of kvs hkvE]

/-- C9: the Gemini-style schema pruning is idempotent — applying
`cleanSchemaForGemini` twice yields the same result as applying it
once, for every JSON-schema-like value. -/
theorem c9_clean_schema_idempotent (s : JVal) :
    cleanJ (cleanJ s) = cleanJ s :=
  (cleanJ_idem_aux (sizeOf s) s le_rfl).1

end Claudish
